import Mathlib

/-!
Verification development for the STONK_PREDICTOR repository.

The indicator engine (StockAnalyzer.calculate_moving_average,
StockAnalyzer.calculate_rsi, StockAnalyzer.prepare_features in
src/data_collection/yahoo_finance_data.py), the backtest strategy
(CustomStrategy.next in src/simulation/simulation.py) and the regression
predictor (StockPredictor.train / predict in src/models/light_yagami.py)
are embedded shallowly over lists of rationals.  A pandas missing value
(NaN) is represented by `none` in an `Option` column; prices and
indicator values are rationals.
-/

set_option autoImplicit false

namespace Stonk

/-!  Rolling mean: the embedding of `Series.rolling(window=w).mean()` for a
series with no missing entries.  Pandas semantics: position `i` is missing
while fewer than `w` observations are available (`i + 1 < w`), and for
`w = 0` every position is missing (mean over zero observations); otherwise
it is the arithmetic mean of the `w` entries ending at index `i`. -/

def rollingMeanAt (w : ℕ) (xs : List ℚ) (i : ℕ) : Option ℚ :=
  if w = 0 ∨ i + 1 < w then none
  else some (((xs.take (i + 1)).drop (i + 1 - w)).sum / w)

def rollingMean (w : ℕ) (xs : List ℚ) : List (Option ℚ) :=
  (List.range xs.length).map (rollingMeanAt w xs)

/-- Embedding of `StockAnalyzer.calculate_moving_average`: the source runs
`self.history_data[f_SMA_w] = self.history_data[Close].rolling(window=window).mean()`
with no validation of its own; pandas `rolling` raises `ValueError` for a
negative integer window, accepts `window = 0` (producing an all-missing
column) and accepts an empty series (producing an empty column). -/
inductive IndicatorError where
  | invalidWindow
  | noHistory
deriving DecidableEq

def calculate_moving_average (closes : List ℚ) (window : ℤ) :
    Except IndicatorError (List (Option ℚ)) :=
  if window < 0 then Except.error IndicatorError.invalidWindow
  else Except.ok (rollingMean window.toNat closes)

@[simp] theorem rollingMean_length (w : ℕ) (xs : List ℚ) :
    (rollingMean w xs).length = xs.length := by
  simp [rollingMean]

theorem rollingMean_getElem? (w : ℕ) (xs : List ℚ) (i : ℕ)
    (hi : i < xs.length) :
    (rollingMean w xs)[i]? = some (rollingMeanAt w xs i) := by
  simp [rollingMean, List.getElem?_map, List.getElem?_range, hi]

/-- Slice shape: the window of `w` entries ending at index `i`, written with
take and drop as in the rolling-mean embedding, coincides with the indexed
enumeration of those entries. -/
theorem slice_eq_map (xs : List ℚ) (w i : ℕ) (hw : w ≤ i + 1)
    (hi : i < xs.length) :
    (xs.take (i + 1)).drop (i + 1 - w)
      = (List.range w).map (fun j => xs.getD (i + 1 - w + j) 0) := by
  apply List.ext_getElem
  · simp
    omega
  · intro j hj1 hj2
    have hlen : ((xs.take (i + 1)).drop (i + 1 - w)).length = w := by
      simp
      omega
    have hjw : j < w := by omega
    have hidx : i + 1 - w + j < xs.length := by omega
    have h1 : ((xs.take (i + 1)).drop (i + 1 - w))[j] = xs[i + 1 - w + j] := by
      rw [List.getElem_drop]
      rw [List.getElem_take]
    rw [h1]
    have h2 : ((List.range w).map (fun j => xs.getD (i + 1 - w + j) 0))[j]
        = xs.getD (i + 1 - w + j) 0 := by
      simp
    rw [h2]
    rw [List.getD_eq_getElem xs 0 hidx]

/-!  Embedding of `StockAnalyzer.calculate_rsi`.  The source computes
`delta = Close.diff(1)`, whose position 0 is missing; then
`delta.where(delta > 0, 0)` replaces every position failing the test by 0,
and a missing delta fails the test, so position 0 of the gain and loss
series is 0, not missing. -/

def deltaAt (closes : List ℚ) (i : ℕ) : ℚ :=
  if i = 0 then 0 else closes.getD i 0 - closes.getD (i - 1) 0

def gains (closes : List ℚ) : List ℚ :=
  (List.range closes.length).map
    (fun i => if 0 < deltaAt closes i then deltaAt closes i else 0)

def losses (closes : List ℚ) : List ℚ :=
  (List.range closes.length).map
    (fun i => if deltaAt closes i < 0 then -deltaAt closes i else 0)

/-- Combination step of `calculate_rsi`: the source evaluates
`rs = gain / loss` and `100 - (100 / (1 + rs))` under IEEE-754 float
semantics on the two rolling means, which are both nonnegative.  For
`loss = 0` and `gain > 0` the ratio is positive infinity and the RSI
evaluates to exactly 100; for `loss = 0` and `gain = 0` the ratio is NaN
and the RSI is NaN, i.e. a missing value; otherwise the value is the exact
rational expression. -/
def rsiCombine (g l : ℚ) : Option ℚ :=
  if l = 0 then (if g = 0 then none else some 100)
  else some (100 - 100 / (1 + g / l))

def rsiAt (w : ℕ) (closes : List ℚ) (i : ℕ) : Option ℚ :=
  match rollingMeanAt w (gains closes) i, rollingMeanAt w (losses closes) i with
  | some g, some l => rsiCombine g l
  | _, _ => none

def calculate_rsi (w : ℕ) (closes : List ℚ) : List (Option ℚ) :=
  (List.range closes.length).map (rsiAt w closes)

@[simp] theorem gains_length (closes : List ℚ) :
    (gains closes).length = closes.length := by
  simp [gains]

@[simp] theorem losses_length (closes : List ℚ) :
    (losses closes).length = closes.length := by
  simp [losses]

@[simp] theorem calculate_rsi_length (w : ℕ) (closes : List ℚ) :
    (calculate_rsi w closes).length = closes.length := by
  simp [calculate_rsi]

theorem calculate_rsi_getElem? (w : ℕ) (closes : List ℚ) (i : ℕ)
    (hi : i < closes.length) :
    (calculate_rsi w closes)[i]? = some (rsiAt w closes i) := by
  simp [calculate_rsi, List.getElem?_map, List.getElem?_range, hi]

theorem rollingMeanAt_eq_sum (w : ℕ) (xs : List ℚ) (i : ℕ) (hw : 0 < w)
    (hwi : w ≤ i + 1) (hi : i < xs.length) :
    rollingMeanAt w xs i =
      some (((List.range w).map (fun j => xs.getD (i + 1 - w + j) 0)).sum / w) := by
  rw [rollingMeanAt, if_neg (by omega), slice_eq_map xs w i hwi hi]

theorem rollingMeanAt_nonneg (w : ℕ) (xs : List ℚ) (i : ℕ) (g : ℚ)
    (hxs : ∀ x ∈ xs, 0 ≤ x) (h : rollingMeanAt w xs i = some g) : 0 ≤ g := by
  rw [rollingMeanAt] at h
  split at h
  · exact absurd h (by simp)
  · have hsub : List.Sublist ((xs.take (i + 1)).drop (i + 1 - w)) xs :=
      List.Sublist.trans (List.drop_sublist _ _) (List.take_sublist _ _)
    have hsum : 0 ≤ ((xs.take (i + 1)).drop (i + 1 - w)).sum :=
      List.sum_nonneg (fun x hx => hxs x (hsub.subset hx))
    have : g = ((xs.take (i + 1)).drop (i + 1 - w)).sum / w := by
      simpa using h.symm
    rw [this]
    positivity

theorem gains_nonneg (closes : List ℚ) : ∀ x ∈ gains closes, 0 ≤ x := by
  intro x hx
  simp only [gains, List.mem_map, List.mem_range] at hx
  obtain ⟨i, _, hi⟩ := hx
  rw [← hi]
  split
  · linarith
  · exact le_refl 0

theorem losses_nonneg (closes : List ℚ) : ∀ x ∈ losses closes, 0 ≤ x := by
  intro x hx
  simp only [losses, List.mem_map, List.mem_range] at hx
  obtain ⟨i, _, hi⟩ := hx
  rw [← hi]
  split
  · linarith
  · exact le_refl 0

theorem gains_getD (closes : List ℚ) (k : ℕ) (hk : k < closes.length) :
    (gains closes).getD k 0
      = if 0 < deltaAt closes k then deltaAt closes k else 0 := by
  rw [List.getD_eq_getElem _ _ (by simpa using hk)]
  simp [gains]

theorem losses_getD (closes : List ℚ) (k : ℕ) (hk : k < closes.length) :
    (losses closes).getD k 0
      = if deltaAt closes k < 0 then -deltaAt closes k else 0 := by
  rw [List.getD_eq_getElem _ _ (by simpa using hk)]
  simp [losses]

theorem rollingMeanAt_eq_zero_of (w : ℕ) (xs : List ℚ) (i : ℕ) (hw : 0 < w)
    (hwi : w ≤ i + 1) (hi : i < xs.length)
    (h0 : ∀ j, i + 1 - w ≤ j → j ≤ i → xs.getD j 0 = 0) :
    rollingMeanAt w xs i = some 0 := by
  rw [rollingMeanAt_eq_sum w xs i hw hwi hi]
  have hz : ((List.range w).map (fun j => xs.getD (i + 1 - w + j) 0)).sum = 0 := by
    apply List.sum_eq_zero
    intro x hx
    simp only [List.mem_map, List.mem_range] at hx
    obtain ⟨j, hj, hjx⟩ := hx
    rw [← hjx]
    exact h0 (i + 1 - w + j) (by omega) (by omega)
  rw [hz]
  simp

theorem windowEntry_nonneg (xs : List ℚ) (hnn : ∀ x ∈ xs, 0 ≤ x) (k : ℕ) :
    0 ≤ xs.getD k 0 := by
  by_cases hk : k < xs.length
  · rw [List.getD_eq_getElem _ _ (by simpa using hk)]
    exact hnn _ (List.getElem_mem _)
  · rw [List.getD_eq_default _ _ (by omega)]

theorem rollingMeanAt_pos_of (w : ℕ) (xs : List ℚ) (i j0 : ℕ) (hw : 0 < w)
    (hwi : w ≤ i + 1) (hi : i < xs.length) (hnn : ∀ x ∈ xs, 0 ≤ x)
    (hj0a : i + 1 - w ≤ j0) (hj0b : j0 ≤ i) (hpos : 0 < xs.getD j0 0) :
    ∃ g, rollingMeanAt w xs i = some g ∧ 0 < g := by
  rw [rollingMeanAt_eq_sum w xs i hw hwi hi]
  refine ⟨_, rfl, ?_⟩
  have hmem : xs.getD j0 0
      ∈ (List.range w).map (fun j => xs.getD (i + 1 - w + j) 0) := by
    apply List.mem_map.mpr
    refine ⟨j0 - (i + 1 - w), List.mem_range.mpr (by omega), ?_⟩
    congr 1
    omega
  have hnn2 : ∀ x ∈ (List.range w).map (fun j => xs.getD (i + 1 - w + j) 0),
      0 ≤ x := by
    intro x hx
    simp only [List.mem_map, List.mem_range] at hx
    obtain ⟨j, hj, hjx⟩ := hx
    rw [← hjx]
    exact windowEntry_nonneg xs hnn _
  have hle := List.single_le_sum hnn2 _ hmem
  have hsum : 0 < ((List.range w).map (fun j => xs.getD (i + 1 - w + j) 0)).sum :=
    lt_of_lt_of_le hpos hle
  have hwq : (0 : ℚ) < (w : ℚ) := by exact_mod_cast hw
  exact div_pos hsum hwq

/-- Claim C7 (amended): for every series and window, the first w - 1
positions of the RSI column are missing.  Because the source replaces the
missing first delta by 0 through its where-call, the gain and loss series
have no missing entries, so only the w - 1 leading positions without a
full rolling window are missing, not the first w positions. -/
theorem C7_rsi_leading_missing (w : ℕ) (closes : List ℚ) (i : ℕ)
    (hi : i < closes.length) (hiw : i + 1 < w) :
    (calculate_rsi w closes)[i]? = some none := by
  rw [calculate_rsi_getElem? w closes i hi]
  have h1 : rollingMeanAt w (gains closes) i = none := by
    rw [rollingMeanAt, if_pos (Or.inr hiw)]
  simp [rsiAt, h1]

theorem C7_rsi_leading_missing_witness :
    (calculate_rsi 3 [1, 2, 3])[1]? = some none :=
  C7_rsi_leading_missing 3 [1, 2, 3] 1 (by decide) (by decide)

/-- Claim C7 counterexample: with window 2 on the series [1, 3, 2], the
position with index 1 lies among the first window positions, yet the RSI
value there is defined (it equals 100), so the first window positions are
not all missing. -/
theorem C7_counterexample :
    (calculate_rsi 2 [1, 3, 2])[1]? = some (some 100) := by
  norm_num [calculate_rsi, rsiAt, rollingMeanAt, gains, losses, deltaAt,
    rsiCombine, List.range_succ]

/-- Claim C3 (amended): whenever the rolling mean of losses over the window
is 0 at a valid position, no division error is propagated: the RSI value
there is 100 when the rolling mean of gains is nonzero, and is missing
(NaN from 0/0) when the rolling mean of gains is also 0. -/
theorem C3_rsi_zero_loss_saturates (w : ℕ) (closes : List ℚ) (i : ℕ) (g : ℚ)
    (hi : i < closes.length)
    (hg : rollingMeanAt w (gains closes) i = some g)
    (hl : rollingMeanAt w (losses closes) i = some 0) :
    (calculate_rsi w closes)[i]? = some (if g = 0 then none else some 100) := by
  rw [calculate_rsi_getElem? w closes i hi]
  simp [rsiAt, hg, hl, rsiCombine]

theorem C3_rsi_zero_loss_saturates_witness :
    (calculate_rsi 2 [1, 2, 3])[2]? = some (some 100) := by
  have h := C3_rsi_zero_loss_saturates 2 [1, 2, 3] 2 1 (by decide)
    (by norm_num [rollingMeanAt, gains, deltaAt, List.range_succ])
    (by norm_num [rollingMeanAt, losses, deltaAt, List.range_succ])
  rw [h]
  norm_num

/-- Claim C3 counterexample: on the constant series [5, 5, 5] with window
2, the rolling mean of losses at index 2 is 0, yet the RSI value there is
missing rather than 100: the source computes 0/0, which is NaN. -/
theorem C3_counterexample :
    rollingMeanAt 2 (losses [5, 5, 5]) 2 = some 0 ∧
    (calculate_rsi 2 [5, 5, 5])[2]? = some none := by
  constructor
  · norm_num [rollingMeanAt, losses, deltaAt, List.range_succ]
  · norm_num [calculate_rsi, rsiAt, rollingMeanAt, gains, losses, deltaAt,
      rsiCombine, List.range_succ]

/-- Claim C4 (amended): every defined RSI value lies in [0, 100]; if every
close-to-close delta in the window is non-negative and at least one is
positive, the value is 100; if every delta in the window is non-positive
and at least one is negative, the value is 0.  (When every delta in the
window is zero the position is missing rather than 100 or 0.) -/
theorem C4_rsi_range_saturation :
    (∀ (w : ℕ) (closes : List ℚ) (i : ℕ) (x : ℚ),
      (calculate_rsi w closes)[i]? = some (some x) →
      0 ≤ x ∧ x ≤ 100) ∧
    (∀ (w : ℕ) (closes : List ℚ) (i : ℕ), 0 < w → w ≤ i + 1 → i < closes.length →
      (∀ j, i + 1 - w ≤ j → j ≤ i → 0 ≤ deltaAt closes j) →
      (∃ j, i + 1 - w ≤ j ∧ j ≤ i ∧ 0 < deltaAt closes j) →
      (calculate_rsi w closes)[i]? = some (some 100)) ∧
    (∀ (w : ℕ) (closes : List ℚ) (i : ℕ), 0 < w → w ≤ i + 1 → i < closes.length →
      (∀ j, i + 1 - w ≤ j → j ≤ i → deltaAt closes j ≤ 0) →
      (∃ j, i + 1 - w ≤ j ∧ j ≤ i ∧ deltaAt closes j < 0) →
      (calculate_rsi w closes)[i]? = some (some 0)) := by
  refine ⟨?_, ?_, ?_⟩
  · intro w closes i x h
    have hi : i < closes.length := by
      by_contra hcon
      have : (calculate_rsi w closes)[i]? = none := by
        apply List.getElem?_eq_none
        simpa using (by omega : closes.length ≤ i)
      rw [this] at h
      exact Option.noConfusion h
    rw [calculate_rsi_getElem? w closes i hi] at h
    have hx : rsiAt w closes i = some x := Option.some.inj h
    rcases hg' : rollingMeanAt w (gains closes) i with _ | g
    · simp [rsiAt, hg'] at hx
    rcases hl' : rollingMeanAt w (losses closes) i with _ | l
    · simp [rsiAt, hg', hl'] at hx
    have hx2 : rsiCombine g l = some x := by
      simpa [rsiAt, hg', hl'] using hx
    have hg0 : 0 ≤ g :=
      rollingMeanAt_nonneg w (gains closes) i g (gains_nonneg closes) hg'
    have hl0 : 0 ≤ l :=
      rollingMeanAt_nonneg w (losses closes) i l (losses_nonneg closes) hl'
    rw [rsiCombine] at hx2
    split at hx2
    · split at hx2
      · exact Option.noConfusion hx2
      · have : (100 : ℚ) = x := Option.some_injective _ hx2
        constructor <;> rw [← this] <;> norm_num
    · rename_i hln
      have hlpos : 0 < l := lt_of_le_of_ne hl0 (Ne.symm hln)
      have hxval : 100 - 100 / (1 + g / l) = x := Option.some_injective _ hx2
      have hgl : 0 ≤ g / l := div_nonneg hg0 hl0
      have hd1 : (1 : ℚ) ≤ 1 + g / l := by linarith
      have hdpos : (0 : ℚ) < 1 + g / l := by linarith
      have hle : 100 / (1 + g / l) ≤ 100 := div_le_self (by norm_num) hd1
      have hgt : 0 < 100 / (1 + g / l) := div_pos (by norm_num) hdpos
      constructor <;> rw [← hxval] <;> linarith
  · intro w closes i hw hwi hi hall hex
    obtain ⟨j0, hj0a, hj0b, hj0pos⟩ := hex
    have hl : rollingMeanAt w (losses closes) i = some 0 := by
      apply rollingMeanAt_eq_zero_of w (losses closes) i hw hwi (by simpa using hi)
      intro j hja hjb
      rw [losses_getD closes j (by omega)]
      rw [if_neg (by have := hall j hja hjb; linarith)]
    have hgpos : 0 < (gains closes).getD j0 0 := by
      rw [gains_getD closes j0 (by omega), if_pos hj0pos]
      exact hj0pos
    obtain ⟨g, hg, hgpos'⟩ :=
      rollingMeanAt_pos_of w (gains closes) i j0 hw hwi (by simpa using hi)
        (gains_nonneg closes) hj0a hj0b hgpos
    rw [calculate_rsi_getElem? w closes i hi]
    simp [rsiAt, hg, hl, rsiCombine, ne_of_gt hgpos']
  · intro w closes i hw hwi hi hall hex
    obtain ⟨j0, hj0a, hj0b, hj0neg⟩ := hex
    have hg : rollingMeanAt w (gains closes) i = some 0 := by
      apply rollingMeanAt_eq_zero_of w (gains closes) i hw hwi (by simpa using hi)
      intro j hja hjb
      rw [gains_getD closes j (by omega)]
      rw [if_neg (by have := hall j hja hjb; linarith)]
    have hlpos : 0 < (losses closes).getD j0 0 := by
      rw [losses_getD closes j0 (by omega), if_pos hj0neg]
      linarith
    obtain ⟨l, hl, hlpos'⟩ :=
      rollingMeanAt_pos_of w (losses closes) i j0 hw hwi (by simpa using hi)
        (losses_nonneg closes) hj0a hj0b hlpos
    rw [calculate_rsi_getElem? w closes i hi]
    have : rsiCombine 0 l = some 0 := by
      rw [rsiCombine, if_neg (ne_of_gt hlpos')]
      norm_num
    simp [rsiAt, hg, hl, this]

theorem C4_rsi_range_saturation_witness :
    (0 ≤ (200 / 3 : ℚ) ∧ (200 / 3 : ℚ) ≤ 100) ∧
    (calculate_rsi 2 [1, 2, 3])[2]? = some (some 100) ∧
    (calculate_rsi 2 [3, 2, 1])[2]? = some (some 0) := by
  refine ⟨?_, ?_, ?_⟩
  · have h := C4_rsi_range_saturation.1 2 [1, 3, 2] 2 (200 / 3 : ℚ)
    apply h
    norm_num [calculate_rsi, rsiAt, rollingMeanAt, gains, losses, deltaAt,
      rsiCombine, List.range_succ]
  · apply C4_rsi_range_saturation.2.1 2 [1, 2, 3] 2 (by decide) (by decide)
      (by decide)
    · intro j hja hjb
      interval_cases j <;> norm_num [deltaAt]
    · exact ⟨2, by omega, by omega, by norm_num [deltaAt]⟩
  · apply C4_rsi_range_saturation.2.2 2 [3, 2, 1] 2 (by decide) (by decide)
      (by decide)
    · intro j hja hjb
      interval_cases j <;> norm_num [deltaAt]
    · exact ⟨2, by omega, by omega, by norm_num [deltaAt]⟩

/-- Claim C4 counterexample: on the constant series [7, 7, 7] with window
2 at index 2, both close-to-close deltas in the window are non-negative,
yet the RSI value is missing rather than 100. -/
theorem C4_counterexample :
    (0 ≤ deltaAt [7, 7, 7] 1 ∧ 0 ≤ deltaAt [7, 7, 7] 2) ∧
    (calculate_rsi 2 [7, 7, 7])[2]? = some none := by
  constructor
  · constructor <;> norm_num [deltaAt]
  · norm_num [calculate_rsi, rsiAt, rollingMeanAt, gains, losses, deltaAt,
      rsiCombine, List.range_succ]

/-- Claim C1: for every price series and every window w with
0 < w ≤ len(S), the simple moving average is computed without error and
returns a column of the same length as the series whose first w - 1
positions are missing and whose position i (for i ≥ w - 1) equals the
arithmetic mean of the w closing prices ending at index i. -/
theorem C1_sma_column_correct (closes : List ℚ) (w : ℕ) (hw : 0 < w)
    (hlen : w ≤ closes.length) :
    calculate_moving_average closes (w : ℤ) = Except.ok (rollingMean w closes) ∧
    (rollingMean w closes).length = closes.length ∧
    (∀ i, i + 1 < w → (rollingMean w closes)[i]? = some none) ∧
    (∀ i, w ≤ i + 1 → i < closes.length →
      (rollingMean w closes)[i]? =
        some (some
          (((List.range w).map (fun j => closes.getD (i + 1 - w + j) 0)).sum / w))) := by
  refine ⟨?_, by simp, ?_, ?_⟩
  · simp [calculate_moving_average]
  · intro i hi
    have hil : i < closes.length := by omega
    rw [rollingMean_getElem? w closes i hil]
    simp [rollingMeanAt]
    omega
  · intro i hwi hil
    rw [rollingMean_getElem? w closes i hil]
    rw [rollingMeanAt, if_neg (by omega)]
    rw [slice_eq_map closes w i hwi hil]

theorem C1_sma_column_correct_witness :
    (rollingMean 2 [1, 2, 3])[0]? = some none ∧
    (rollingMean 2 [1, 2, 3])[2]? = some (some (5 / 2)) := by
  have h := C1_sma_column_correct [1, 2, 3] 2 (by decide) (by decide)
  refine ⟨h.2.2.1 0 (by decide), ?_⟩
  rw [h.2.2.2 2 (by decide) (by decide)]
  norm_num [List.range_succ]

/-!  Embedding of the backtest (`CustomStrategy` in
src/simulation/simulation.py).  The transition rule is translated from
`CustomStrategy.next`: when out of the market, buy iff
`sma_short[0] > sma_long[0] and rsi[0] < rsi_lower`; when in the market,
sell iff `sma_short[0] < sma_long[0] or rsi[0] > rsi_upper`.

Modelled from the spec (the broker and scheduler live in the backtrader
library, not in src/): orders execute at the current close for a single
unit, the entry price is recorded on a buy, a bar with any missing
indicator value is skipped (no transition is evaluated), and at every bar
the pair (timestamp, current cash) is appended to the equity curve before
the rule is evaluated, regardless of transition. -/

inductive Position where
  | flat
  | long
deriving DecidableEq

structure StratParams where
  shortSma : ℕ
  longSma : ℕ
  rsiPeriod : ℕ
  rsiUpper : ℚ
  rsiLower : ℚ

/-- Defaults of `CustomStrategy.params`: short 20, long 50, RSI period 14,
upper threshold 70, lower threshold 30. -/
def defaultParams : StratParams :=
  { shortSma := 20, longSma := 50, rsiPeriod := 14, rsiUpper := 70,
    rsiLower := 30 }

structure Bar where
  t : ℕ
  close : ℚ
  smaS : Option ℚ
  smaL : Option ℚ
  rsi : Option ℚ

structure SimState where
  cash : ℚ
  pos : Position
  entryPrice : Option ℚ
  equity : List (ℕ × ℚ)

def stepBar (p : StratParams) (s : SimState) (b : Bar) : SimState :=
  let s1 : SimState := ⟨s.cash, s.pos, s.entryPrice, s.equity ++ [(b.t, s.cash)]⟩
  match b.smaS, b.smaL, b.rsi with
  | some ss, some sl, some r =>
    match s.pos with
    | Position.flat =>
      if sl < ss ∧ r < p.rsiLower then
        ⟨s.cash - b.close, Position.long, some b.close, s1.equity⟩
      else s1
    | Position.long =>
      if ss < sl ∨ p.rsiUpper < r then
        ⟨s.cash + b.close, Position.flat, none, s1.equity⟩
      else s1
  | _, _, _ => s1

def runBars (p : StratParams) (s : SimState) (bars : List Bar) : SimState :=
  bars.foldl (stepBar p) s

def mkBars (p : StratParams) (closes : List ℚ) : List Bar :=
  (List.range closes.length).map (fun i =>
    { t := i, close := closes.getD i 0,
      smaS := rollingMeanAt p.shortSma closes i,
      smaL := rollingMeanAt p.longSma closes i,
      rsi := rsiAt p.rsiPeriod closes i })

def initState (startCash : ℚ) : SimState :=
  ⟨startCash, Position.flat, none, []⟩

def runSimulation (p : StratParams) (startCash : ℚ) (closes : List ℚ) :
    SimState :=
  runBars p (initState startCash) (mkBars p closes)

theorem stepBar_equity (p : StratParams) (s : SimState) (b : Bar) :
    (stepBar p s b).equity = s.equity ++ [(b.t, s.cash)] := by
  rw [stepBar]
  rcases b.smaS with _ | ss <;> rcases b.smaL with _ | sl <;>
    rcases b.rsi with _ | r <;> simp
  rcases s.pos with _ | _ <;> simp <;> split <;> simp

/-- Claim C2: at every evaluated bar (all three indicator values present),
the position transitions FLAT to LONG iff sma_short > sma_long and
rsi < rsi_lower (default 30), buying one unit at the current close and
recording the entry price; it transitions LONG to FLAT iff
sma_short < sma_long or rsi > rsi_upper (default 70), selling at the
current close; in every other case the position, cash and entry price are
unchanged. -/
theorem C2_transition_rule (p : StratParams) (s : SimState) (b : Bar)
    (ss sl r : ℚ) (hss : b.smaS = some ss) (hsl : b.smaL = some sl)
    (hr : b.rsi = some r) :
    (defaultParams.rsiLower = 30 ∧ defaultParams.rsiUpper = 70) ∧
    (s.pos = Position.flat →
      (((stepBar p s b).pos = Position.long) ↔ (sl < ss ∧ r < p.rsiLower)) ∧
      (sl < ss ∧ r < p.rsiLower →
        (stepBar p s b).cash = s.cash - b.close ∧
        (stepBar p s b).entryPrice = some b.close) ∧
      (¬(sl < ss ∧ r < p.rsiLower) →
        (stepBar p s b).pos = s.pos ∧ (stepBar p s b).cash = s.cash ∧
        (stepBar p s b).entryPrice = s.entryPrice)) ∧
    (s.pos = Position.long →
      (((stepBar p s b).pos = Position.flat) ↔ (ss < sl ∨ p.rsiUpper < r)) ∧
      ((ss < sl ∨ p.rsiUpper < r) →
        (stepBar p s b).cash = s.cash + b.close) ∧
      (¬(ss < sl ∨ p.rsiUpper < r) →
        (stepBar p s b).pos = s.pos ∧ (stepBar p s b).cash = s.cash ∧
        (stepBar p s b).entryPrice = s.entryPrice)) := by
  refine ⟨⟨rfl, rfl⟩, ?_, ?_⟩
  · intro hpos
    rw [stepBar, hss, hsl, hr]
    simp only [hpos]
    by_cases hc : sl < ss ∧ r < p.rsiLower
    · rw [if_pos hc]
      refine ⟨by simp [hc], fun _ => ⟨rfl, rfl⟩, fun hnc => absurd hc hnc⟩
    · rw [if_neg hc]
      refine ⟨by simp [hpos, hc], fun hc2 => absurd hc2 hc, fun _ => ⟨rfl, rfl, rfl⟩⟩
  · intro hpos
    rw [stepBar, hss, hsl, hr]
    simp only [hpos]
    by_cases hc : ss < sl ∨ p.rsiUpper < r
    · rw [if_pos hc]
      refine ⟨by simp [hc], fun _ => rfl, fun hnc => absurd hc hnc⟩
    · rw [if_neg hc]
      refine ⟨by simp [hpos, hc], fun hc2 => absurd hc2 hc, fun _ => ⟨rfl, rfl, rfl⟩⟩

theorem C2_transition_rule_witness :
    (stepBar defaultParams (initState 10000)
      ⟨0, 50, some 3, some 2, some 10⟩).pos = Position.long ∧
    (stepBar defaultParams (initState 10000)
      ⟨0, 50, some 3, some 2, some 10⟩).cash = 10000 - 50 := by
  have h := C2_transition_rule defaultParams (initState 10000)
    ⟨0, 50, some 3, some 2, some 10⟩ 3 2 10 rfl rfl rfl
  have hflat : (initState (10000 : ℚ)).pos = Position.flat := rfl
  have hcond : (2 : ℚ) < 3 ∧ (10 : ℚ) < defaultParams.rsiLower := by
    constructor <;> norm_num [defaultParams]
  exact ⟨((h.2.1 hflat).1).mpr hcond, ((h.2.1 hflat).2.1 hcond).1⟩

/-- Claim C5: a run of the simulation appends exactly one
(timestamp, current cash) entry to the equity curve at every bar,
regardless of whether a position transition occurs, so the equity curve
has exactly one entry per bar of the input series, in bar order. -/
theorem C5_equity_one_entry_per_bar :
    (∀ (p : StratParams) (s : SimState) (bars : List Bar),
      (runBars p s bars).equity.length = s.equity.length + bars.length ∧
      (runBars p s bars).equity.map Prod.fst
        = s.equity.map Prod.fst ++ bars.map Bar.t) ∧
    (∀ (p : StratParams) (startCash : ℚ) (closes : List ℚ),
      (runSimulation p startCash closes).equity.length = closes.length) := by
  have key : ∀ (p : StratParams) (bars : List Bar) (s : SimState),
      (runBars p s bars).equity.length = s.equity.length + bars.length ∧
      (runBars p s bars).equity.map Prod.fst
        = s.equity.map Prod.fst ++ bars.map Bar.t := by
    intro p bars
    induction bars with
    | nil => intro s; simp [runBars]
    | cons b bs ih =>
      intro s
      have hstep : runBars p s (b :: bs) = runBars p (stepBar p s b) bs := by
        simp [runBars]
      rw [hstep]
      obtain ⟨ih1, ih2⟩ := ih (stepBar p s b)
      constructor
      · rw [ih1, stepBar_equity]
        simp
        omega
      · rw [ih2, stepBar_equity]
        simp
  refine ⟨fun p s bars => key p bars s, fun p startCash closes => ?_⟩
  have h := (key p (mkBars p closes) (initState startCash)).1
  rw [runSimulation, h]
  simp [initState, mkBars]

theorem rollingMeanAt_of_allzero (w : ℕ) (xs : List ℚ) (i : ℕ)
    (h : ∀ x ∈ xs, x = 0) :
    rollingMeanAt w xs i = none ∨ rollingMeanAt w xs i = some 0 := by
  rw [rollingMeanAt]
  split
  · exact Or.inl rfl
  · right
    have hsub : List.Sublist ((xs.take (i + 1)).drop (i + 1 - w)) xs :=
      List.Sublist.trans (List.drop_sublist _ _) (List.take_sublist _ _)
    have hz : ((xs.take (i + 1)).drop (i + 1 - w)).sum = 0 :=
      List.sum_eq_zero (fun x hx => h x (hsub.subset hx))
    rw [hz]
    simp

theorem deltaAt_replicate (n : ℕ) (c : ℚ) (i : ℕ) (hi : i < n) :
    deltaAt (List.replicate n c) i = 0 := by
  rw [deltaAt]
  split
  · rfl
  · rename_i h0
    rw [List.getD_eq_getElem _ _ (by simpa using hi)]
    rw [List.getD_eq_getElem _ _ (by simp; omega)]
    simp

theorem gains_replicate_zero (n : ℕ) (c : ℚ) :
    ∀ x ∈ gains (List.replicate n c), x = 0 := by
  intro x hx
  simp only [gains, List.mem_map, List.mem_range, List.length_replicate] at hx
  obtain ⟨i, hi, hix⟩ := hx
  rw [← hix, deltaAt_replicate n c i hi]
  simp

theorem losses_replicate_zero (n : ℕ) (c : ℚ) :
    ∀ x ∈ losses (List.replicate n c), x = 0 := by
  intro x hx
  simp only [losses, List.mem_map, List.mem_range, List.length_replicate] at hx
  obtain ⟨i, hi, hix⟩ := hx
  rw [← hix, deltaAt_replicate n c i hi]
  simp

theorem rsiAt_replicate_none (w n : ℕ) (c : ℚ) (i : ℕ) :
    rsiAt w (List.replicate n c) i = none := by
  rcases rollingMeanAt_of_allzero w (gains (List.replicate n c)) i
      (gains_replicate_zero n c) with hg | hg <;>
    rcases rollingMeanAt_of_allzero w (losses (List.replicate n c)) i
      (losses_replicate_zero n c) with hl | hl <;>
    simp [rsiAt, hg, hl, rsiCombine]

theorem stepBar_rsi_none (p : StratParams) (s : SimState) (b : Bar)
    (hr : b.rsi = none) :
    stepBar p s b = ⟨s.cash, s.pos, s.entryPrice, s.equity ++ [(b.t, s.cash)]⟩ := by
  rw [stepBar, hr]
  rcases b.smaS with _ | ss <;> rcases b.smaL with _ | sl <;> simp

theorem runBars_skip (p : StratParams) (bars : List Bar)
    (h : ∀ b ∈ bars, b.rsi = none) :
    ∀ s : SimState,
      (runBars p s bars).pos = s.pos ∧ (runBars p s bars).cash = s.cash ∧
      (runBars p s bars).equity
        = s.equity ++ bars.map (fun b => (b.t, s.cash)) := by
  induction bars with
  | nil => intro s; simp [runBars]
  | cons b bs ih =>
    intro s
    have hstep : runBars p s (b :: bs) = runBars p (stepBar p s b) bs := by
      simp [runBars]
    rw [hstep, stepBar_rsi_none p s b (h b (by simp))]
    obtain ⟨ih1, ih2, ih3⟩ := ih (fun b hb => h b (by simp [hb])) _
    refine ⟨ih1, ih2, ?_⟩
    rw [ih3]
    simp

/-- Claim C6: on a constant-price series the simulation performs no
position transition: the final position is FLAT, the final cash is the
configured starting cash, and every entry of the equity curve equals the
starting cash. -/
theorem C6_constant_series (p : StratParams) (startCash : ℚ) (n : ℕ) (c : ℚ) :
    (runSimulation p startCash (List.replicate n c)).pos = Position.flat ∧
    (runSimulation p startCash (List.replicate n c)).cash = startCash ∧
    ∀ e ∈ (runSimulation p startCash (List.replicate n c)).equity,
      e.2 = startCash := by
  have hall : ∀ b ∈ mkBars p (List.replicate n c), b.rsi = none := by
    intro b hb
    simp only [mkBars, List.mem_map, List.mem_range] at hb
    obtain ⟨i, _, hib⟩ := hb
    rw [← hib]
    exact rsiAt_replicate_none p.rsiPeriod n c i
  obtain ⟨h1, h2, h3⟩ :=
    runBars_skip p (mkBars p (List.replicate n c)) hall (initState startCash)
  refine ⟨h1, h2, ?_⟩
  rw [runSimulation] at *
  intro e he
  rw [h3] at he
  simp only [initState, List.nil_append, List.mem_map] at he
  obtain ⟨b, _, hbe⟩ := he
  rw [← hbe]

/-- Claim C8 counterexample: `calculate_moving_average` does not fail on an
empty series, and does not fail for window 0 either: in both cases it
succeeds and an indicator column is produced (empty, respectively
all-missing). -/
theorem C8_counterexample :
    calculate_moving_average [] 5 = Except.ok [] ∧
    calculate_moving_average [1, 2, 3] 0 = Except.ok [none, none, none] := by
  constructor
  · rfl
  · simp [calculate_moving_average, rollingMean, rollingMeanAt, List.range_succ]

/-- Claim C8 (amended): the moving-average computation fails (with the
pandas invalid-window error) exactly when the window is negative; for any
non-negative window, in particular window 0 and an empty series, it
succeeds with a column of the same length as the series, and for window 0
every position of that column is missing. -/
theorem C8_sma_validation :
    (∀ (closes : List ℚ) (window : ℤ), window < 0 →
      calculate_moving_average closes window
        = Except.error IndicatorError.invalidWindow) ∧
    (∀ (closes : List ℚ) (window : ℤ), 0 ≤ window →
      calculate_moving_average closes window
        = Except.ok (rollingMean window.toNat closes) ∧
      (rollingMean window.toNat closes).length = closes.length) ∧
    (∀ (closes : List ℚ) (x : Option ℚ), x ∈ rollingMean 0 closes →
      x = none) := by
  refine ⟨?_, ?_, ?_⟩
  · intro closes window hw
    rw [calculate_moving_average, if_pos hw]
  · intro closes window hw
    rw [calculate_moving_average, if_neg (by omega)]
    exact ⟨rfl, by simp⟩
  · intro closes x hx
    simp only [rollingMean, List.mem_map, List.mem_range] at hx
    obtain ⟨i, _, hix⟩ := hx
    rw [← hix, rollingMeanAt, if_pos (Or.inl rfl)]

theorem C8_sma_validation_witness :
    calculate_moving_average [1, 2] (-1)
      = Except.error IndicatorError.invalidWindow ∧
    calculate_moving_average [1, 2] 3 = Except.ok (rollingMean 3 [1, 2]) := by
  refine ⟨C8_sma_validation.1 [1, 2] (-1) (by norm_num), ?_⟩
  have h := (C8_sma_validation.2.1 [1, 2] 3 (by norm_num)).1
  simpa using h

/-!  Embedding of `StockPredictor` (src/models/light_yagami.py).  The
source calls `train_test_split(X, y, test_size=0.2, random_state=0)` and
fits `sklearn.linear_model.LinearRegression` on the training partition.

Modelled from the spec (scikit-learn is a library collaborator, not code
under src/): `train_test_split` draws a permutation of the row indices
that is a deterministic function of the seed, takes the first
ceil(0.2 * n) permuted indices as the test partition and the remaining
n - ceil(0.2 * n) as the training partition; the exact permutation used
by scikit-learn is not reproduced, only its determinism, the partition
property and the partition sizes.  The ordinary least-squares fit is
modelled by the normal equations over an intercept-augmented feature
matrix, solved through determinants (a deterministic function of the
training rows); the numeric pseudo-inverse of scikit-learn on singular
systems is not reproduced. -/

def shuffledIndices (seed n : ℕ) : List ℕ :=
  (List.range n).rotate seed

structure SplitResult where
  trainIdx : List ℕ
  testIdx : List ℕ

def testCount (testFrac : ℚ) (n : ℕ) : ℕ := ⌈testFrac * n⌉₊

def train_test_split (n : ℕ) (testFrac : ℚ) (seed : ℕ) : SplitResult :=
  let perm := shuffledIndices seed n
  let k := testCount testFrac n
  { testIdx := perm.take k, trainIdx := (perm.drop k).take (n - k) }

def dotProd (a b : List ℚ) : ℚ := (List.zipWith (fun x y => x * y) a b).sum

def removeEntry (j : ℕ) (row : List ℚ) : List ℚ := row.take j ++ row.drop (j + 1)

def detAux : ℕ → List (List ℚ) → ℚ
  | 0, _ => 1
  | _ + 1, [] => 1
  | fuel + 1, r :: rest =>
    ((List.range r.length).map (fun j =>
      (if j % 2 = 0 then (1 : ℚ) else -1) * r.getD j 0
        * detAux fuel (rest.map (removeEntry j)))).sum

def det (m : List (List ℚ)) : ℚ := detAux m.length m

def replaceColumn (j : ℕ) (b : List ℚ) (m : List (List ℚ)) :
    List (List ℚ) :=
  List.zipWith (fun row bi => row.take j ++ bi :: row.drop (j + 1)) m b

def solveLin (m : List (List ℚ)) (b : List ℚ) : List ℚ :=
  let d := det m
  if d = 0 then List.replicate b.length 0
  else (List.range b.length).map (fun j => det (replaceColumn j b m) / d)

def withIntercept (X : List (List ℚ)) : List (List ℚ) :=
  X.map (fun row => 1 :: row)

def gram (X1 : List (List ℚ)) : List (List ℚ) :=
  let k := (X1.headD []).length
  (List.range k).map (fun a =>
    (List.range k).map (fun b =>
      (X1.map (fun row => row.getD a 0 * row.getD b 0)).sum))

def gramVec (X1 : List (List ℚ)) (y : List ℚ) : List ℚ :=
  let k := (X1.headD []).length
  (List.range k).map (fun a =>
    (List.zipWith (fun row yi => row.getD a 0 * yi) X1 y).sum)

def olsFit (X : List (List ℚ)) (y : List ℚ) : List ℚ :=
  solveLin (gram (withIntercept X)) (gramVec (withIntercept X) y)

structure StockPredictor where
  model : Option (List ℚ)
  XTest : List (List ℚ)
  yTest : List ℚ

def selectRows (idx : List ℕ) (X : List (List ℚ)) : List (List ℚ) :=
  idx.map (fun i => X.getD i [])

def selectVals (idx : List ℕ) (y : List ℚ) : List ℚ :=
  idx.map (fun i => y.getD i 0)

def train (X : List (List ℚ)) (y : List ℚ) : StockPredictor :=
  let sp := train_test_split X.length (1 / 5) 0
  { model := some (olsFit (selectRows sp.trainIdx X) (selectVals sp.trainIdx y)),
    XTest := selectRows sp.testIdx X,
    yTest := selectVals sp.testIdx y }

def predict (sp : StockPredictor) (X : List (List ℚ)) : Option (List ℚ) :=
  sp.model.map (fun beta => X.map (fun row => dotProd (1 :: row) beta))

/-- Claim C9: `train` splits its input rows into train/test partitions in
ratio 0.8/0.2 (test size ceil(n / 5), train size n - ceil(n / 5), the two
index lists together a permutation of all row indices) and the pipeline is
deterministic given the seed, which the source fixes at random_state 0:
two calls on equal features and targets produce the same partition and the
same fitted ordinary-least-squares model, hence identical predictions. -/
theorem C9_train_split_deterministic :
    (∀ (n seed : ℕ) (f : ℚ),
      List.Perm ((train_test_split n f seed).testIdx
          ++ (train_test_split n f seed).trainIdx)
        (List.range n)) ∧
    (∀ n seed : ℕ,
      (train_test_split n (1 / 5) seed).testIdx.length = ⌈(1 / 5 : ℚ) * n⌉₊ ∧
      (train_test_split n (1 / 5) seed).trainIdx.length
        = n - ⌈(1 / 5 : ℚ) * n⌉₊) ∧
    (∀ (X1 X2 : List (List ℚ)) (y1 y2 : List ℚ) (Z : List (List ℚ)),
      X1 = X2 → y1 = y2 →
      train X1 y1 = train X2 y2 ∧
      predict (train X1 y1) Z = predict (train X2 y2) Z) := by
  have hlen : ∀ seed n : ℕ, (shuffledIndices seed n).length = n := by
    intro seed n
    simp [shuffledIndices]
  refine ⟨?_, ?_, ?_⟩
  · intro n seed f
    have htail : ((shuffledIndices seed n).drop (testCount f n)).take
        (n - testCount f n) = (shuffledIndices seed n).drop (testCount f n) := by
      apply List.take_of_length_le
      simp [hlen]
    rw [train_test_split]
    simp only [htail]
    rw [List.take_append_drop]
    exact List.Perm.trans (List.rotate_perm (List.range n) seed) (List.Perm.refl _)
  · intro n seed
    have hk : ⌈(1 / 5 : ℚ) * n⌉₊ ≤ n := by
      apply Nat.ceil_le.mpr
      have h0 : (0 : ℚ) ≤ (n : ℚ) := Nat.cast_nonneg n
      linarith
    constructor
    · rw [train_test_split]
      simp only [testCount]
      rw [List.length_take, hlen]
      omega
    · rw [train_test_split]
      simp only [testCount]
      rw [List.length_take, List.length_drop, hlen]
      omega
  · intro X1 X2 y1 y2 Z hX hy
    subst hX
    subst hy
    exact ⟨rfl, rfl⟩

theorem C9_train_split_deterministic_witness :
    List.Perm ((train_test_split 5 (1 / 5) 0).testIdx
        ++ (train_test_split 5 (1 / 5) 0).trainIdx) (List.range 5) ∧
    train [[1], [2]] [3, 4] = train [[1], [2]] [3, 4] :=
  ⟨C9_train_split_deterministic.1 5 0 (1 / 5),
    (C9_train_split_deterministic.2.2 [[1], [2]] [[1], [2]] [3, 4] [3, 4] []
      rfl rfl).1⟩

/-!  Embedding of `StockAnalyzer.prepare_features`: the source computes the
20 and 50 day moving averages and the 14 day RSI over the stored history,
calls `dropna(inplace=True)` which removes every row containing any
missing value, then selects the feature matrix
[SMA_20, SMA_50, RSI, PE_Ratio, Volume] and the target column Close. -/

structure HistRow where
  close : ℚ
  volume : Option ℚ
  pe : Option ℚ

structure FeatRow where
  idx : ℕ
  sma20 : Option ℚ
  sma50 : Option ℚ
  rsi : Option ℚ
  pe : Option ℚ
  volume : Option ℚ
  close : ℚ

def buildRows (rows : List HistRow) : List FeatRow :=
  (List.range rows.length).map (fun i =>
    { idx := i,
      sma20 := rollingMeanAt 20 (rows.map HistRow.close) i,
      sma50 := rollingMeanAt 50 (rows.map HistRow.close) i,
      rsi := rsiAt 14 (rows.map HistRow.close) i,
      pe := (rows.getD i ⟨0, none, none⟩).pe,
      volume := (rows.getD i ⟨0, none, none⟩).volume,
      close := (rows.map HistRow.close).getD i 0 })

def keepRow (r : FeatRow) : Bool :=
  r.sma20.isSome && r.sma50.isSome && r.rsi.isSome && r.pe.isSome &&
    r.volume.isSome

def prepare_features (rows : List HistRow) :
    List (ℚ × ℚ × ℚ × ℚ × ℚ) × List ℚ :=
  let kept := (buildRows rows).filter keepRow
  (kept.map (fun r =>
      (r.sma20.getD 0, r.sma50.getD 0, r.rsi.getD 0, r.pe.getD 0,
        r.volume.getD 0)),
    kept.map FeatRow.close)

/-- Claim C10: `prepare_features` returns a feature matrix X and a target
vector y of equal length; every kept row has indicator, P/E and volume
values all present, and every row with any missing indicator, P/E or
volume value is dropped before X and y are selected. -/
theorem C10_prepare_features_drops_missing (rows : List HistRow) :
    (prepare_features rows).1.length = (prepare_features rows).2.length ∧
    (∀ r ∈ (buildRows rows).filter keepRow,
      r.sma20.isSome = true ∧ r.sma50.isSome = true ∧ r.rsi.isSome = true ∧
        r.pe.isSome = true ∧ r.volume.isSome = true) ∧
    (∀ i, i < rows.length →
      (rollingMeanAt 20 (rows.map HistRow.close) i = none ∨
       rollingMeanAt 50 (rows.map HistRow.close) i = none ∨
       rsiAt 14 (rows.map HistRow.close) i = none ∨
       (rows.getD i ⟨0, none, none⟩).pe = none ∨
       (rows.getD i ⟨0, none, none⟩).volume = none) →
      ∀ r ∈ (buildRows rows).filter keepRow, r.idx ≠ i) := by
  refine ⟨by simp [prepare_features], ?_, ?_⟩
  · intro r hr
    obtain ⟨_, hkeep⟩ := List.mem_filter.mp hr
    simp only [keepRow, Bool.and_eq_true] at hkeep
    exact ⟨hkeep.1.1.1.1, hkeep.1.1.1.2, hkeep.1.1.2, hkeep.1.2, hkeep.2⟩
  · intro i hi hmiss r hr hri
    obtain ⟨hmem, hkeep⟩ := List.mem_filter.mp hr
    simp only [buildRows, List.mem_map, List.mem_range] at hmem
    obtain ⟨i0, hi0, hrec⟩ := hmem
    have hidx : i0 = i := by
      rw [← hri, ← hrec]
    subst hidx
    simp only [keepRow, Bool.and_eq_true] at hkeep
    rcases hmiss with h | h | h | h | h
    · have : r.sma20 = none := by rw [← hrec]; simpa using h
      rw [this] at hkeep
      simp at hkeep
    · have : r.sma50 = none := by rw [← hrec]; simpa using h
      rw [this] at hkeep
      simp at hkeep
    · have : r.rsi = none := by rw [← hrec]; simpa using h
      rw [this] at hkeep
      simp at hkeep
    · have : r.pe = none := by rw [← hrec]; simpa using h
      rw [this] at hkeep
      simp at hkeep
    · have : r.volume = none := by rw [← hrec]; simpa using h
      rw [this] at hkeep
      simp at hkeep

theorem C10_prepare_features_drops_missing_witness :
    (prepare_features [⟨5, none, some 3⟩]).1.length
      = (prepare_features [⟨5, none, some 3⟩]).2.length ∧
    ∀ r ∈ (buildRows [⟨5, none, some 3⟩]).filter keepRow, r.idx ≠ 0 := by
  have h := C10_prepare_features_drops_missing [⟨5, none, some 3⟩]
  exact ⟨h.1, h.2.2 0 (by decide)
    (Or.inr (Or.inr (Or.inr (Or.inr (by decide)))))⟩

end Stonk
